import Mathlib

set_option maxRecDepth 8000

/-!
Verification development for the ip-resolver repository: a shallow
embedding of the sharded TTL cache with write-behind persistence, the
inflight deduplication set, the request-handling state machine of
Manager.HandleUpdate, the worker loop, and the trie-based tag
normalizer, together with theorems settling the specification claims.

Machine integers (Go int64) are modelled as Int; the arithmetic in the
embedded operations never approaches the int64 range for the properties
proved here.  Go maps are modelled as association lists with unique
keys; where Go map iteration order is unspecified (the random eviction
in Cache.Set) the model picks the first binding, one legitimate
resolution of the nondeterminism.
-/

/-! ### Byte-level string utilities (Go strings are byte slices) -/

/-- UTF-8 encoding of one character, as the list of its byte values.
Matches the Go runtime encoding of a rune inside a string. -/
def utf8Bytes (c : Char) : List Nat :=
  let n := c.toNat
  if n < 0x80 then [n]
  else if n < 0x800 then [0xC0 + n / 64, 0x80 + n % 64]
  else if n < 0x10000 then
    [0xE0 + n / 4096, 0x80 + (n / 64) % 64, 0x80 + n % 64]
  else
    [0xF0 + n / 262144, 0x80 + (n / 4096) % 64, 0x80 + (n / 64) % 64, 0x80 + n % 64]

/-- All bytes of a string, in order (Go: the byte slice of the string). -/
def strBytes (s : String) : List Nat :=
  (s.data.map utf8Bytes).flatten

/-! ### getCacheKey (src/internal/provider/interface.go, lines 117 to 128)

Go iterates over the bytes of the raw IP and returns the prefix strictly
before the third dot byte, or the whole string when there are fewer than
three dots.  Since a dot byte in valid UTF-8 is exactly the character
".", the character-level model below is equivalent. -/

def getCacheKeyAux : List Char → Nat → List Char
  | [], _ => []
  | c :: rest, dots =>
    if c = '.' then
      if dots + 1 = 3 then []
      else c :: getCacheKeyAux rest (dots + 1)
    else c :: getCacheKeyAux rest dots

/-- Go source: getCacheKey returns ip truncated just before its third
dot, or ip unchanged when it has fewer than three dots. -/
def getCacheKey (ip : String) : String :=
  ⟨getCacheKeyAux ip.data 0⟩

/-- Number of dot characters in a string. -/
def dotCount (s : String) : Nat :=
  (s.data.filter (fun c => c = '.')).length

theorem getCacheKeyAux_no_dot_budget (cs : List Char) (dots : Nat)
    (h : (cs.filter (fun c => c = '.')).length + dots < 3) :
    getCacheKeyAux cs dots = cs := by
  induction cs generalizing dots with
  | nil => rfl
  | cons c rest ih =>
    by_cases hc : c = '.'
    · subst hc
      rw [List.filter_cons_of_pos (by simp)] at h
      simp only [List.length_cons] at h
      have hd3 : ¬ (dots + 1 = 3) := by omega
      have hrest := ih (dots + 1) (by omega)
      simp [getCacheKeyAux, hd3, hrest]
    · rw [List.filter_cons_of_neg (by simp [hc])] at h
      simp only [getCacheKeyAux, if_neg hc]
      rw [ih dots h]

/-! ### Model of the Go standard library net.ParseIP and IP.To4

The handler gate calls net.ParseIP and IP.To4 from the Go standard
library (not part of this repository); they are modelled here from the
documented stdlib semantics (Go 1.17+): ParseIP dispatches on the first
".", ":" or "%" byte; dotted quads are four decimal octets, 0 to 255,
no leading zeros; IPv6 text allows at most one "::" and an embedded
trailing dotted quad; the result is a 16-byte address, To4 succeeding
exactly on IPv4-mapped addresses. -/

def isDigitChar (c : Char) : Bool :=
  '0' ≤ c && c ≤ '9'

def isHexChar (c : Char) : Bool :=
  isDigitChar c || ('a' ≤ c && c ≤ 'f') || ('A' ≤ c && c ≤ 'F')

def hexVal (c : Char) : Nat :=
  if isDigitChar c then c.toNat - 48
  else if 'a' ≤ c && c ≤ 'f' then c.toNat - 87
  else c.toNat - 55

def decValue (ds : List Char) : Nat :=
  ds.foldl (fun a c => a * 10 + (c.toNat - 48)) 0

/-- Parse one decimal octet (1 to 3 digits, value at most 255, no
leading zero) from the front of the character list. -/
def parseOctet (cs : List Char) : Option (Nat × List Char) :=
  if cs.takeWhile isDigitChar = [] then none
  else if 1 < (cs.takeWhile isDigitChar).length
        ∧ (cs.takeWhile isDigitChar).headD 'x' = '0' then none
  else if 3 < (cs.takeWhile isDigitChar).length then none
  else if 255 < decValue (cs.takeWhile isDigitChar) then none
  else some (decValue (cs.takeWhile isDigitChar), cs.dropWhile isDigitChar)

def expectDot (cs : List Char) : Option (List Char) :=
  match cs with
  | c :: rest => if c = '.' then some rest else none
  | [] => none

/-- Dotted-quad IPv4 parser over characters (Go netip parseIPv4). -/
def parseIPv4cs (cs : List Char) : Option (Nat × Nat × Nat × Nat) :=
  match parseOctet cs with
  | none => none
  | some (a, r1) =>
    match expectDot r1 with
    | none => none
    | some r1d =>
      match parseOctet r1d with
      | none => none
      | some (b, r2) =>
        match expectDot r2 with
        | none => none
        | some r2d =>
          match parseOctet r2d with
          | none => none
          | some (c, r3) =>
            match expectDot r3 with
            | none => none
            | some r3d =>
              match parseOctet r3d with
              | none => none
              | some (d, r4) => if r4 = [] then some (a, b, c, d) else none

/-- The dotted-quad parser on a string; some exactly when the string is
an IPv4 literal accepted by Go. -/
def parseIPv4 (s : String) : Option (Nat × Nat × Nat × Nat) :=
  parseIPv4cs s.data

/-- 16-byte IPv4-mapped representation of four octets (Go v4InV6). -/
def v4InV6 (x : Nat × Nat × Nat × Nat) : List Nat :=
  [0, 0, 0, 0, 0, 0, 0, 0, 0, 0, 255, 255, x.1, x.2.1, x.2.2.1, x.2.2.2]

/-- One pass of the Go netip parseIPv6 loop; fuel bounds the recursion
(each step consumes at least one character). -/
def p6loop : Nat → List Char → List Nat → Option Nat → Option (List Nat × Option Nat)
  | 0, _, _, _ => none
  | fuel + 1, cs, ip, ell =>
    if 16 ≤ ip.length then
      if cs = [] then some (ip, ell) else none
    else
      let hx := cs.takeWhile isHexChar
      let rest := cs.dropWhile isHexChar
      if hx = [] then none
      else if 4 < hx.length then none
      else
        let acc := hx.foldl (fun a c => a * 16 + hexVal c) 0
        match rest with
        | '.' :: _ =>
          if ell = none ∧ ip.length ≠ 12 then none
          else if 16 < ip.length + 4 then none
          else
            match parseIPv4cs cs with
            | none => none
            | some (a, b, c, d) => some (ip ++ [a, b, c, d], ell)
        | [] => some (ip ++ [acc / 256, acc % 256], ell)
        | [':'] => none
        | ':' :: ':' :: rest2 =>
          let ip2 := ip ++ [acc / 256, acc % 256]
          if ell.isSome then none
          else if rest2 = [] then some (ip2, some ip2.length)
          else p6loop fuel rest2 ip2 (some ip2.length)
        | ':' :: rest1 => p6loop fuel rest1 (ip ++ [acc / 256, acc % 256]) ell
        | _ => none

/-- Expand the double-colon ellipsis and enforce the length checks at
the end of IPv6 parsing. -/
def p6finish : List Nat × Option Nat → Option (List Nat)
  | (ip, ell) =>
    if ip.length < 16 then
      match ell with
      | none => none
      | some e => some (ip.take e ++ List.replicate (16 - ip.length) 0 ++ ip.drop e)
    else
      match ell with
      | some _ => none
      | none => some ip

/-- IPv6 textual parser over characters (Go netip parseIPv6, zones
excluded; a percent byte is already rejected by the dispatch). -/
def parseIPv6cs (cs : List Char) : Option (List Nat) :=
  match cs with
  | ':' :: ':' :: rest =>
    if rest = [] then some (List.replicate 16 0)
    else (p6loop (rest.length + 1) rest [] (some 0)).bind p6finish
  | ':' :: _ => none
  | _ => (p6loop (cs.length + 1) cs [] none).bind p6finish

/-- First dispatch byte of ParseIP: the first ".", ":" or "%". -/
def ipDispatch : List Char → Option Char
  | [] => none
  | c :: rest =>
    if c = '.' ∨ c = ':' ∨ c = '%' then some c else ipDispatch rest

/-- Model of Go net.ParseIP: returns the 16-byte address on success. -/
def goParseIP (s : String) : Option (List Nat) :=
  match ipDispatch s.data with
  | some '.' => (parseIPv4cs s.data).map v4InV6
  | some ':' => parseIPv6cs s.data
  | _ => none

/-- Model of Go IP.To4: the 4-byte view, defined exactly on 4-byte
addresses and on 16-byte IPv4-mapped addresses. -/
def goTo4 (bs : List Nat) : Option (List Nat) :=
  if bs.length = 4 then some bs
  else if bs.length = 16 && (bs.take 10).all (fun b => b = 0)
        && bs.getD 10 0 = 255 && bs.getD 11 0 = 255 then
    some (bs.drop 12)
  else none

theorem ipDispatch_append_of_no_special (xs ys : List Char)
    (h : ∀ c ∈ xs, ¬(c = '.' ∨ c = ':' ∨ c = '%')) :
    ipDispatch (xs ++ ys) = ipDispatch ys := by
  induction xs with
  | nil => rfl
  | cons c rest ih =>
    have hc := h c (List.mem_cons_self c rest)
    simp only [List.cons_append, ipDispatch, if_neg hc]
    exact ih (fun d hd => h d (List.mem_cons_of_mem c hd))

theorem parseOctet_rest (cs : List Char) (v : Nat) (r : List Char)
    (h : parseOctet cs = some (v, r)) : r = cs.dropWhile isDigitChar := by
  unfold parseOctet at h
  split_ifs at h
  simp only [Option.some.injEq, Prod.mk.injEq] at h
  exact h.2.symm

theorem digit_not_special (c : Char) (h : isDigitChar c = true) :
    ¬(c = '.' ∨ c = ':' ∨ c = '%') := by
  intro hc
  rcases hc with hc | hc | hc <;> subst hc <;> exact absurd h (by decide)

theorem expectDot_some (r r1 : List Char) (h : expectDot r = some r1) :
    r = '.' :: r1 := by
  match r with
  | [] => exact absurd h (by simp [expectDot])
  | c :: rest =>
    simp only [expectDot] at h
    split_ifs at h with hc
    · subst hc
      simp only [Option.some.injEq] at h
      rw [h]

/-- A string accepted by the dotted-quad parser makes ParseIP take the
IPv4 branch: its first dispatch byte is a dot. -/
theorem ipDispatch_of_parseIPv4 (cs : List Char) (x : Nat × Nat × Nat × Nat)
    (h : parseIPv4cs cs = some x) : ipDispatch cs = some '.' := by
  unfold parseIPv4cs at h
  split at h
  next => exact absurd h (by simp)
  next a r1 heq =>
    split at h
    next => exact absurd h (by simp)
    next r1d heq2 =>
      have hr := parseOctet_rest cs a r1 heq
      have hrdot : r1 = '.' :: r1d := expectDot_some r1 r1d heq2
      have hsplit : cs = cs.takeWhile isDigitChar ++ r1 := by
        rw [hr, List.takeWhile_append_dropWhile]
      rw [hsplit, hrdot]
      rw [ipDispatch_append_of_no_special _ _
        (fun c hc => digit_not_special c (List.mem_takeWhile_imp hc))]
      simp [ipDispatch]

theorem goParseIP_of_parseIPv4 (s : String) (x : Nat × Nat × Nat × Nat)
    (h : parseIPv4 s = some x) : goParseIP s = some (v4InV6 x) := by
  unfold goParseIP
  rw [ipDispatch_of_parseIPv4 s.data x h]
  unfold parseIPv4 at h
  rw [h]
  rfl

theorem goTo4_v4InV6 (x : Nat × Nat × Nat × Nat) :
    goTo4 (v4InV6 x) = some [x.1, x.2.1, x.2.2.1, x.2.2.2] := by
  rfl

/-! ### Sharded cache with write-behind persistence
(src/unnamed/part_001, persistent version, lines 532 to 1086)

Go maps from string to entry are association lists whose keys stay
unique along every reachable state; shard selection hashes the key
bytes with FNV-1a 64 and keeps the low 8 bits.  The cached clock, the
counters and the closed flag are plain fields (Go atomics, quiescent
view); the buffered persistence channel is a list bounded by its
capacity of 2048.  The background goroutines (clock tick, sweep,
persistence writer) are modelled as explicit state transitions. -/

structure Entry where
  value : String
  exp : Int
  refreshAt : Int
deriving DecidableEq

structure Shard where
  items : List (String × Entry)
deriving DecidableEq

structure PersistOp where
  IsDelete : Bool
  Key : String
  Value : String
  Exp : Int
  RefreshAt : Int
deriving DecidableEq

structure Cache where
  shards : List Shard
  ttl : Int
  refreshWindow : Int
  shardCap : Nat
  count : Int
  droppedUpdates : Int
  now : Int
  persistCh : List PersistOp
  persistCap : Nat
  closed : Bool
deriving DecidableEq

/-- Go map lookup on an association list with unique keys. -/
def lookupKey : List (String × Entry) → String → Option Entry
  | [], _ => none
  | kv :: rest, k => if kv.1 = k then some kv.2 else lookupKey rest k

/-- Go map update of an existing key: overwrite the binding in place. -/
def overwriteKey (l : List (String × Entry)) (k : String) (e : Entry) :
    List (String × Entry) :=
  l.map (fun kv => if kv.1 = k then (k, e) else kv)

/-- Go map delete: remove the binding of the key, if present (first
occurrence; keys are unique in every reachable shard). -/
def delKey : List (String × Entry) → String → List (String × Entry)
  | [], _ => []
  | kv :: rest, k => if kv.1 = k then rest else kv :: delKey rest k

/-- FNV-1a 64-bit hash of a byte sequence, with 64-bit wraparound. -/
def fnv1a (bytes : List Nat) : Nat :=
  bytes.foldl (fun h b => ((h ^^^ b) * 1099511628211) % (2 ^ 64)) 14695981039346656037

/-- Shard index of a key: low 8 bits of the FNV-1a hash of its bytes
(Go: h and shardMask with shardMask = 255). -/
def shardIdx (key : String) : Nat :=
  fnv1a (strBytes key) % 256

def Cache.getShard (c : Cache) (key : String) : Shard :=
  c.shards.getD (shardIdx key) ⟨[]⟩

/-- Truncating division of an exact rational toward zero, the rounding
Go applies when converting the float64 product to int64. -/
def ratTruncToInt (q : ℚ) : Int :=
  Int.tdiv q.num (q.den : Int)

/-- Go source: cache.New.  The refresh ratio is coerced to 0 outside
[0, 1); the refresh window is ttl times the ratio.  The Go float64
multiplication is modelled exactly over the rationals; at the ratio
values the claims touch (ratio 0) both agree exactly.  The start
instant (Go time.Now) is an explicit argument. -/
def Cache.New (ttl : Int) (ratio : ℚ) (start : Int) : Cache :=
  let r := if ratio < 0 ∨ 1 ≤ ratio then 0 else ratio
  { shards := List.replicate 256 ⟨[]⟩
    ttl := ttl
    refreshWindow := ratTruncToInt ((ttl : ℚ) * r)
    shardCap := 2000
    count := 0
    droppedUpdates := 0
    now := start
    persistCh := []
    persistCap := 2048
    closed := false }

/-- Result of Cache.Get, one field per Go return value. -/
structure GetResult where
  value : String
  found : Bool
  needsRefresh : Bool
  remaining : Int
deriving DecidableEq

/-- The entry the cache currently binds to a key (inside its shard). -/
def Cache.lookupEntry (c : Cache) (key : String) : Option Entry :=
  lookupKey (c.getShard key).items key

/-- Go source: Cache.Get.  Reads the cached clock, looks the key up in
its shard, reports a miss when absent or when now has reached exp, and
otherwise returns the value, the refresh flag and the remaining TTL. -/
def Cache.Get (c : Cache) (key : String) : GetResult :=
  match c.lookupEntry key with
  | none => ⟨"", false, false, 0⟩
  | some e =>
    if c.now ≥ e.exp then ⟨"", false, false, 0⟩
    else ⟨e.value, true, decide (0 < c.refreshWindow) && decide (c.now ≥ e.refreshAt), e.exp - c.now⟩

/-- Go source: Cache.sendToPersist.  Refuses the op when the closed
flag is set; otherwise a non-blocking try-send that drops the op when
the channel is full; a dropped op bumps droppedUpdates by one. -/
def Cache.sendToPersist (c : Cache) (op : PersistOp) : Cache :=
  if c.closed then { c with droppedUpdates := c.droppedUpdates + 1 }
  else if c.persistCh.length < c.persistCap then { c with persistCh := c.persistCh ++ [op] }
  else { c with droppedUpdates := c.droppedUpdates + 1 }

/-- The part of Cache.Set performed under the shard write lock:
overwrite in place when the key exists; otherwise evict one arbitrary
binding when the shard is at capacity (Go ranges over the map and
breaks after one delete, so an empty map evicts nothing; the model
takes the first binding) and insert the fresh entry. -/
def Cache.setCore (c : Cache) (key val : String) : Cache :=
  let exp := c.now + c.ttl
  let e : Entry := ⟨val, exp, exp - c.refreshWindow⟩
  let i := shardIdx key
  let items := (c.getShard key).items
  if (lookupKey items key).isSome then
    { c with shards := c.shards.set i ⟨overwriteKey items key e⟩ }
  else if c.shardCap ≤ items.length then
    match items with
    | [] => { c with shards := c.shards.set i ⟨[(key, e)]⟩, count := c.count + 1 }
    | _ :: tl =>
      { c with shards := c.shards.set i ⟨(key, e) :: tl⟩, count := (c.count - 1) + 1 }
  else
    { c with shards := c.shards.set i ⟨(key, e) :: items⟩, count := c.count + 1 }

/-- Go source: Cache.Set.  The locked update followed, after the lock
is released, by the emission of one upsert persistence op carrying the
written key, value, exp and refreshAt. -/
def Cache.Set (c : Cache) (key val : String) : Cache :=
  (c.setCore key val).sendToPersist
    ⟨false, key, val, c.now + c.ttl, (c.now + c.ttl) - c.refreshWindow⟩

/-- Go source: Cache.SetWithTime (restore path): like the locked part
of Set but trusting the caller-supplied exp and refreshAt, and emitting
no persistence op. -/
def Cache.SetWithTime (c : Cache) (key val : String) (exp refreshAt : Int) : Cache :=
  let e : Entry := ⟨val, exp, refreshAt⟩
  let i := shardIdx key
  let items := (c.getShard key).items
  if (lookupKey items key).isSome then
    { c with shards := c.shards.set i ⟨overwriteKey items key e⟩ }
  else if c.shardCap ≤ items.length then
    match items with
    | [] => { c with shards := c.shards.set i ⟨[(key, e)]⟩, count := c.count + 1 }
    | _ :: tl =>
      { c with shards := c.shards.set i ⟨(key, e) :: tl⟩, count := (c.count - 1) + 1 }
  else
    { c with shards := c.shards.set i ⟨(key, e) :: items⟩, count := c.count + 1 }

/-- Go source: Cache.Delete.  Only when the key is present: remove it,
decrement the count and emit a delete persistence op. -/
def Cache.Delete (c : Cache) (key : String) : Cache :=
  let i := shardIdx key
  let items := (c.getShard key).items
  if (lookupKey items key).isSome then
    ({ c with shards := c.shards.set i ⟨delKey items key⟩,
              count := c.count - 1 }).sendToPersist ⟨true, key, "", 0, 0⟩
  else c

/-- Go source: Cache.Close sets the closed flag (the goroutine
shutdown handshake carries no cache state visible to the claims). -/
def Cache.Close (c : Cache) : Cache :=
  { c with closed := true }

/-- Go source: Cache.Count, an atomic load of the counter. -/
def Cache.Count (c : Cache) : Int :=
  c.count

/-- Go source: Cache.DroppedCount. -/
def Cache.DroppedCount (c : Cache) : Int :=
  c.droppedUpdates

/-- One step of the expiry sweep on shard i: delete every entry whose
exp has been reached, decrementing the count once per removal.  The
sweep emits no persistence ops. -/
def Cache.cleanupShard (c : Cache) (i : Nat) (swNow : Int) : Cache :=
  let items := (c.shards.getD i ⟨[]⟩).items
  let kept := items.filter (fun kv => decide (swNow < kv.2.exp))
  let removed := items.length - kept.length
  { c with shards := c.shards.set i ⟨kept⟩, count := c.count - removed }

/-- The full sweep pass over all 256 shards, in index order. -/
def Cache.cleanupAll (c : Cache) (swNow : Int) : Cache :=
  (List.range 256).foldl (fun acc i => acc.cleanupShard i swNow) c

/-- Number of live bindings summed across all shards. -/
def Cache.liveBindings (c : Cache) : Nat :=
  (c.shards.map (fun s => s.items.length)).sum

/-- The counting invariant of the cache: 256 shards, and the atomic
counter equals the number of live bindings across shards. -/
def WellCounted (c : Cache) : Prop :=
  c.shards.length = 256 ∧ c.count = (c.liveBindings : Int)

/-- The cache operations that can run after construction, for stating
properties over arbitrary operation sequences. -/
inductive CacheOp where
  | setOp (key val : String)
  | delOp (key : String)
  | setTimeOp (key val : String) (exp refreshAt : Int)
  | sweepOp (swNow : Int)
deriving DecidableEq

def applyOp (c : Cache) : CacheOp → Cache
  | .setOp k v => c.Set k v
  | .delOp k => c.Delete k
  | .setTimeOp k v e r => c.SetWithTime k v e r
  | .sweepOp n => c.cleanupAll n

def applyOps (c : Cache) (ops : List CacheOp) : Cache :=
  ops.foldl applyOp c

/-! ### Counting lemmas -/

theorem sumMap_set (l : List Shard) (i : Nat) (s' : Shard) (hi : i < l.length) :
    ((l.set i s').map (fun s => s.items.length)).sum + (l.getD i ⟨[]⟩).items.length
      = (l.map (fun s => s.items.length)).sum + s'.items.length := by
  induction l generalizing i with
  | nil => simp at hi
  | cons a as ih =>
    cases i with
    | zero =>
      simp only [List.set_cons_zero, List.map_cons, List.sum_cons, List.getD_cons_zero]
      omega
    | succ n =>
      simp only [List.set_cons_succ, List.map_cons, List.sum_cons, List.getD_cons_succ]
      have hn : n < as.length := by simpa using hi
      have := ih n hn
      omega

theorem length_overwriteKey (l : List (String × Entry)) (k : String) (e : Entry) :
    (overwriteKey l k e).length = l.length := by
  simp [overwriteKey]

theorem length_delKey (l : List (String × Entry)) (k : String) (e : Entry)
    (h : lookupKey l k = some e) : (delKey l k).length + 1 = l.length := by
  induction l with
  | nil => simp [lookupKey] at h
  | cons kv rest ih =>
    by_cases hk : kv.1 = k
    · simp [delKey, hk]
    · simp only [lookupKey, if_neg hk] at h
      simp only [delKey, if_neg hk, List.length_cons]
      rw [ih h]

theorem sendToPersist_shards (c : Cache) (op : PersistOp) :
    (c.sendToPersist op).shards = c.shards := by
  unfold Cache.sendToPersist
  split_ifs <;> rfl

theorem sendToPersist_count (c : Cache) (op : PersistOp) :
    (c.sendToPersist op).count = c.count := by
  unfold Cache.sendToPersist
  split_ifs <;> rfl

theorem shardIdx_lt (key : String) : shardIdx key < 256 :=
  Nat.mod_lt _ (by omega)

theorem wellCounted_setCore (c : Cache) (k v : String) (h : WellCounted c) :
    WellCounted (c.setCore k v) := by
  obtain ⟨hlen, hcnt⟩ := h
  have hi : shardIdx k < c.shards.length := hlen ▸ shardIdx_lt k
  unfold Cache.setCore
  dsimp only
  set old := (c.getShard k).items with hold
  have hbase : ∀ s' : Shard,
      ((c.shards.set (shardIdx k) s').map (fun s => s.items.length)).sum + old.length
        = c.liveBindings + s'.items.length := by
    intro s'
    have := sumMap_set c.shards (shardIdx k) s' hi
    simpa [Cache.liveBindings, Cache.getShard, hold] using this
  clear hold
  split_ifs with h1 h2
  · refine ⟨by simpa using hlen, ?_⟩
    have hb := hbase ⟨overwriteKey old k ⟨v, c.now + c.ttl, c.now + c.ttl - c.refreshWindow⟩⟩
    simp only [length_overwriteKey] at hb
    simp only [Cache.liveBindings] at hb ⊢
    simp only [hcnt]
    simp only [Cache.liveBindings]
    omega
  · cases hitems : old with
    | nil =>
      refine ⟨by simpa using hlen, ?_⟩
      have hb := hbase ⟨[(k, ⟨v, c.now + c.ttl, c.now + c.ttl - c.refreshWindow⟩)]⟩
      simp only [List.length_singleton] at hb
      simp only [Cache.liveBindings] at hb ⊢
      rw [hitems] at hb
      simp only [List.length_nil] at hb
      simp only [hcnt, Cache.liveBindings]
      omega
    | cons hd tl =>
      refine ⟨by simpa using hlen, ?_⟩
      have hb := hbase ⟨(k, ⟨v, c.now + c.ttl, c.now + c.ttl - c.refreshWindow⟩) :: tl⟩
      simp only [List.length_cons] at hb
      simp only [Cache.liveBindings] at hb ⊢
      rw [hitems] at hb
      simp only [List.length_cons] at hb
      simp only [hcnt, Cache.liveBindings]
      omega
  · refine ⟨by simpa using hlen, ?_⟩
    have hb := hbase ⟨(k, ⟨v, c.now + c.ttl, c.now + c.ttl - c.refreshWindow⟩) :: old⟩
    simp only [List.length_cons] at hb
    simp only [Cache.liveBindings] at hb ⊢
    simp only [hcnt, Cache.liveBindings]
    omega

theorem wellCounted_Set (c : Cache) (k v : String) (h : WellCounted c) :
    WellCounted (c.Set k v) := by
  have hs := wellCounted_setCore c k v h
  obtain ⟨hlen, hcnt⟩ := hs
  constructor
  · rw [Cache.Set, sendToPersist_shards]; exact hlen
  · rw [Cache.Set, sendToPersist_count]
    simpa [Cache.liveBindings, Cache.Set, sendToPersist_shards] using hcnt

theorem wellCounted_SetWithTime (c : Cache) (k v : String) (exp refreshAt : Int)
    (h : WellCounted c) : WellCounted (c.SetWithTime k v exp refreshAt) := by
  obtain ⟨hlen, hcnt⟩ := h
  have hi : shardIdx k < c.shards.length := hlen ▸ shardIdx_lt k
  unfold Cache.SetWithTime
  dsimp only
  set old := (c.getShard k).items with hold
  have hbase : ∀ s' : Shard,
      ((c.shards.set (shardIdx k) s').map (fun s => s.items.length)).sum + old.length
        = c.liveBindings + s'.items.length := by
    intro s'
    have := sumMap_set c.shards (shardIdx k) s' hi
    simpa [Cache.liveBindings, Cache.getShard, hold] using this
  clear hold
  split_ifs with h1 h2
  · refine ⟨by simpa using hlen, ?_⟩
    have hb := hbase ⟨overwriteKey old k ⟨v, exp, refreshAt⟩⟩
    simp only [length_overwriteKey] at hb
    simp only [Cache.liveBindings] at hb ⊢
    simp only [hcnt, Cache.liveBindings]
    omega
  · cases hitems : old with
    | nil =>
      refine ⟨by simpa using hlen, ?_⟩
      have hb := hbase ⟨[(k, ⟨v, exp, refreshAt⟩)]⟩
      simp only [List.length_singleton] at hb
      simp only [Cache.liveBindings] at hb ⊢
      rw [hitems] at hb
      simp only [List.length_nil] at hb
      simp only [hcnt, Cache.liveBindings]
      omega
    | cons hd tl =>
      refine ⟨by simpa using hlen, ?_⟩
      have hb := hbase ⟨(k, ⟨v, exp, refreshAt⟩) :: tl⟩
      simp only [List.length_cons] at hb
      simp only [Cache.liveBindings] at hb ⊢
      rw [hitems] at hb
      simp only [List.length_cons] at hb
      simp only [hcnt, Cache.liveBindings]
      omega
  · refine ⟨by simpa using hlen, ?_⟩
    have hb := hbase ⟨(k, ⟨v, exp, refreshAt⟩) :: old⟩
    simp only [List.length_cons] at hb
    simp only [Cache.liveBindings] at hb ⊢
    simp only [hcnt, Cache.liveBindings]
    omega

theorem wellCounted_Delete (c : Cache) (k : String) (h : WellCounted c) :
    WellCounted (c.Delete k) := by
  obtain ⟨hlen, hcnt⟩ := h
  have hi : shardIdx k < c.shards.length := hlen ▸ shardIdx_lt k
  unfold Cache.Delete
  dsimp only
  set old := (c.getShard k).items with hold
  have hbase : ∀ s' : Shard,
      ((c.shards.set (shardIdx k) s').map (fun s => s.items.length)).sum + old.length
        = c.liveBindings + s'.items.length := by
    intro s'
    have := sumMap_set c.shards (shardIdx k) s' hi
    simpa [Cache.liveBindings, Cache.getShard, hold] using this
  clear hold
  split_ifs with h1
  · cases he : lookupKey old k with
    | none => rw [he] at h1; simp at h1
    | some e =>
      have hlend := length_delKey old k e he
      refine ⟨?_, ?_⟩
      · rw [sendToPersist_shards]; simpa using hlen
      · have hb := hbase ⟨delKey old k⟩
        rw [sendToPersist_count]
        simp only [Cache.liveBindings, sendToPersist_shards] at hb ⊢
        simp only [hcnt, Cache.liveBindings]
        omega
  · exact ⟨hlen, hcnt⟩

theorem wellCounted_cleanupShard (c : Cache) (i : Nat) (swNow : Int)
    (hi : i < c.shards.length) (h : WellCounted c) :
    WellCounted (c.cleanupShard i swNow) := by
  obtain ⟨hlen, hcnt⟩ := h
  unfold Cache.cleanupShard
  dsimp only
  set old := (c.shards.getD i ⟨[]⟩).items with hold
  set kept := old.filter (fun kv => decide (swNow < kv.2.exp)) with hkept
  have hble : kept.length ≤ old.length := by
    rw [hkept]; exact List.length_filter_le _ _
  have hbase := sumMap_set c.shards i ⟨kept⟩ hi
  refine ⟨by simpa using hlen, ?_⟩
  simp only [Cache.liveBindings] at hbase ⊢
  rw [← hold] at hbase
  simp only [hcnt, Cache.liveBindings]
  omega

theorem wellCounted_cleanupAll (c : Cache) (swNow : Int) (h : WellCounted c) :
    WellCounted (c.cleanupAll swNow) := by
  unfold Cache.cleanupAll
  have hgen : ∀ (l : List Nat) (acc : Cache), (∀ j ∈ l, j < 256) → WellCounted acc →
      WellCounted (l.foldl (fun a i => a.cleanupShard i swNow) acc) := by
    intro l
    induction l with
    | nil => intro acc _ ha; exact ha
    | cons j js ih =>
      intro acc hmem ha
      simp only [List.foldl_cons]
      exact ih _ (fun x hx => hmem x (List.mem_cons_of_mem j hx))
        (wellCounted_cleanupShard acc j swNow (ha.1 ▸ hmem j (List.mem_cons_self j js)) ha)
  exact hgen (List.range 256) c (fun j hj => List.mem_range.mp hj) h

theorem wellCounted_nonneg (c : Cache) (h : WellCounted c) : 0 ≤ c.count := by
  rw [h.2]; exact Int.natCast_nonneg _

/-! ### Tag normalizer, trie-based version
(src/unnamed/part_001, lines 112 to 237)

Go strings.ToLower / strings.ToUpper / strings.TrimSpace are modelled
on the character level; on the vocabulary involved (ASCII codes and
CJK names) the ASCII case mapping and ASCII whitespace set coincide
with the Go Unicode versions.  The Go children maps of the trie are
association lists with unique rune keys; Go map iteration order never
matters because all accesses are keyed lookups, so the trie built by
folding the source-order pair list has the same lookup behavior as the
one Go builds from its map range. -/

structure IPInfo where
  Province : String
  ISP : String
  ProvinceCode : String
  ISPCode : String
deriving DecidableEq

def isSpaceChar (c : Char) : Bool :=
  c = ' ' || (9 ≤ c.toNat && c.toNat ≤ 13)

def trimSpace (s : String) : String :=
  ⟨((s.data.dropWhile isSpaceChar).reverse.dropWhile isSpaceChar).reverse⟩

def lowerStr (s : String) : String :=
  ⟨s.data.map Char.toLower⟩

def upperStr (s : String) : String :=
  ⟨s.data.map Char.toUpper⟩

/-- Substring test on characters (Go strings.Contains; byte level and
character level coincide on valid UTF-8 for the keyword set in use). -/
def containsSub : List Char → List Char → Bool
  | hay, needle =>
    if needle.isPrefixOf hay then true
    else
      match hay with
      | [] => false
      | _ :: t => containsSub t needle

def strContains (hay needle : String) : Bool :=
  containsSub hay.data needle.data

/-- Trie node: children keyed by character, plus the stored code (the
empty string meaning no code, as in the Go zero value). -/
inductive TrieNode where
  | node : List (Char × TrieNode) → String → TrieNode

def TrieNode.children : TrieNode → List (Char × TrieNode)
  | .node ch _ => ch

def TrieNode.codeOf : TrieNode → String
  | .node _ co => co

def childLookup : List (Char × TrieNode) → Char → Option TrieNode
  | [], _ => none
  | kv :: rest, r => if kv.1 = r then some kv.2 else childLookup rest r

def childUpdate : List (Char × TrieNode) → Char → TrieNode → List (Char × TrieNode)
  | [], r, t => [(r, t)]
  | kv :: rest, r, t => if kv.1 = r then (r, t) :: rest else kv :: childUpdate rest r t

/-- Go source: trieNode.insert, walking or creating one child per rune
and storing the code at the final node. -/
def TrieNode.insert : List Char → String → TrieNode → TrieNode
  | [], code, t => .node t.children code
  | r :: rs, code, t =>
    let child := match childLookup t.children r with
      | some cc => cc
      | none => .node [] ""
    .node (childUpdate t.children r (TrieNode.insert rs code child)) t.codeOf

/-- Go source: trieNode.matchPrefix, walking the input rune by rune and
returning the code of the first node reached that carries one; failure
to descend, or running out of input, yields the empty string. -/
def TrieNode.matchPref : TrieNode → List Char → String
  | _, [] => ""
  | t, r :: rs =>
    match childLookup t.children r with
    | none => ""
    | some nxt => if nxt.codeOf ≠ "" then nxt.codeOf else TrieNode.matchPref nxt rs

/-- The (Chinese name, code) pairs of the Go init cnMap, in source
order. -/
def cnMapList : List (String × String) :=
  [("北京", "beijing"), ("天津", "tianjin"), ("河北", "hebei"), ("山西", "shanxi"),
   ("内蒙古", "neimenggu"), ("辽宁", "liaoning"), ("吉林", "jilin"), ("黑龙江", "heilongjiang"),
   ("上海", "shanghai"), ("江苏", "jiangsu"), ("浙江", "zhejiang"), ("安徽", "anhui"),
   ("福建", "fujian"), ("江西", "jiangxi"), ("山东", "shandong"), ("河南", "henan"),
   ("湖北", "hubei"), ("湖南", "hunan"), ("广东", "guangdong"), ("广西", "guangxi"),
   ("海南", "hainan"), ("重庆", "chongqing"), ("四川", "sichuan"), ("贵州", "guizhou"),
   ("云南", "yunnan"), ("西藏", "xizang"), ("陕西", "shaanxi"), ("甘肃", "gansu"),
   ("青海", "qinghai"), ("宁夏", "ningxia"), ("新疆", "xinjiang"),
   ("香港", "hk"), ("澳门", "mo"), ("台湾", "tw")]

/-- Go source: the init function inserts, for every pair, both the
Chinese name and the code itself, each mapping to the code. -/
def provinceTrieRoot : TrieNode :=
  cnMapList.foldl
    (fun t kv => TrieNode.insert kv.2.data kv.2 (TrieNode.insert kv.1.data kv.2 t))
    (.node [] "")

/-- Go source: ispRules, the ordered keyword rule list. -/
def ispRules : List (String × List String) :=
  [("ct", ["电信", "TELECOM", "CHINANET"]),
   ("cu", ["联通", "UNICOM"]),
   ("cmcc", ["移动", "MOBILE", "TIETONG", "铁通"]),
   ("edu", ["教育", "EDU", "CERNET"]),
   ("gwbn", ["长城", "GWBN"]),
   ("cbn", ["广电", "CABLE", "CBN"])]

def findIspRule (raw : String) : List (String × List String) → Option String
  | [] => none
  | rule :: rest =>
    if rule.2.any (fun kw => strContains raw kw) then some rule.1
    else findIspRule raw rest

/-- The province code the detection computes for an input: trim, lower,
walk the trie; empty when the trimmed input is empty or no prefix
matches. -/
def provinceCodeOf (s : String) : String :=
  if trimSpace s = "" then ""
  else provinceTrieRoot.matchPref (lowerStr (trimSpace s)).data

/-- The ISP code the detection computes for an input: trim, upper, take
the first rule with a contained keyword; empty when the trimmed input
is empty or no rule fires. -/
def ispCodeOf (s : String) : String :=
  if trimSpace s = "" then ""
  else
    match findIspRule (upperStr (trimSpace s)) ispRules with
    | some code => code
    | none => ""

/-- Go source: IPInfo.detectProvinceCode assigns the ProvinceCode field
only when a nonempty code was detected. -/
def IPInfo.detectProvinceCode (i : IPInfo) : IPInfo :=
  if provinceCodeOf i.Province = "" then i
  else { i with ProvinceCode := provinceCodeOf i.Province }

/-- Go source: IPInfo.detectISPCode assigns the ISPCode field only when
a rule fired. -/
def IPInfo.detectISPCode (i : IPInfo) : IPInfo :=
  if ispCodeOf i.ISP = "" then i
  else { i with ISPCode := ispCodeOf i.ISP }

/-- Go source: IPInfo.Standardize runs province then ISP detection. -/
def IPInfo.Standardize (i : IPInfo) : IPInfo :=
  i.detectProvinceCode.detectISPCode

/-- Go source: IPInfo.ToTag emits the literal fallback when either code
field is empty, otherwise the underscore-joined pair of codes. -/
def IPInfo.ToTag (i : IPInfo) : String :=
  if i.ProvinceCode = "" ∨ i.ISPCode = "" then "fallback"
  else i.ProvinceCode ++ "_" ++ i.ISPCode

/-! ### Manager: inflight set, work queue, request handler, worker
(src/internal/provider/interface.go, worker package, lines 12 to 318)

The inflight set is a list of keys without duplicates (the Go map with
struct zero values); TryAdd checks membership before inserting, Delete
removes.  The bounded work queue (Go buffered channel, capacity 4096)
is a list together with its capacity; the non-blocking try-send
succeeds exactly when the queue is below capacity.  A handler or
worker invocation is an atomic transition on this state; the provider
fetch is an oracle argument so that every outcome of the upstream call
is covered. -/

structure ManagerState where
  cache : Cache
  inflight : List String
  queue : List String
  queueCap : Nat
deriving DecidableEq

inductive HttpStatus where
  | ok
  | accepted
  | badRequest
  | tooManyRequests
deriving DecidableEq

structure HandleResult where
  status : HttpStatus
  body : String
  state : ManagerState
deriving DecidableEq

/-- Go source: Manager.HandleUpdate.  The validation gate (empty path
or favicon, ParseIP, To4), then the five-state machine keyed by the
slash-24 cache key: fresh hit, hit inside the refresh window (with the
inflight TryAdd and the compensating Delete when the try-send fails),
coalesced miss, accepted miss, and overloaded miss. -/
def ManagerState.handleUpdate (s : ManagerState) (rawIP : String) : HandleResult :=
  if rawIP = "" ∨ rawIP = "favicon.ico" then ⟨.badRequest, "", s⟩
  else
    match goParseIP rawIP with
    | none => ⟨.badRequest, "invalid ip format", s⟩
    | some addr =>
      if goTo4 addr = none then ⟨.badRequest, "only ipv4 supported", s⟩
      else
        let key := getCacheKey rawIP
        let g := s.cache.Get key
        if g.found then
          if g.needsRefresh then
            if key ∈ s.inflight then ⟨.ok, g.value, s⟩
            else if s.queue.length < s.queueCap then
              ⟨.ok, g.value, { s with inflight := key :: s.inflight, queue := s.queue ++ [rawIP] }⟩
            else
              ⟨.ok, g.value, { s with inflight := (key :: s.inflight).erase key }⟩
          else ⟨.ok, g.value, s⟩
        else
          if key ∈ s.inflight then ⟨.accepted, "", s⟩
          else if s.queue.length < s.queueCap then
            ⟨.accepted, "", { s with inflight := key :: s.inflight, queue := s.queue ++ [rawIP] }⟩
          else
            ⟨.tooManyRequests, "", { s with inflight := (key :: s.inflight).erase key }⟩

/-- Go source: one iteration of Manager.worker on the dequeued raw IP.
The deferred inflight Delete runs on every path: cache re-check hit,
provider fetch error (the oracle returning none), and successful Set.
The fetch oracle maps the raw IP to the provider result. -/
def ManagerState.workerStep (s : ManagerState)
    (fetch : String → Option (String × String)) : ManagerState :=
  match s.queue with
  | [] => s
  | rawIP :: rest =>
    let key := getCacheKey rawIP
    let s0 := { s with queue := rest }
    let s1 :=
      let g := s0.cache.Get key
      if g.found && !g.needsRefresh then s0
      else
        match fetch rawIP with
        | none => s0
        | some pi =>
          let info := IPInfo.Standardize ⟨pi.1, pi.2, "", ""⟩
          { s0 with cache := s0.cache.Set key info.ToTag }
    { s1 with inflight := s1.inflight.erase key }

/-- The single-flight bookkeeping invariant: the inflight set carries
no duplicates and is, up to order, exactly the multiset of cache keys
of the queued raw IPs. -/
def InflightInv (s : ManagerState) : Prop :=
  s.inflight.Nodup ∧ s.inflight.Perm (s.queue.map getCacheKey)

/-! ### Field-preservation lemmas for the persistence claims -/

theorem sendToPersist_closed (c : Cache) (op : PersistOp) :
    (c.sendToPersist op).closed = c.closed := by
  unfold Cache.sendToPersist
  split_ifs <;> rfl

theorem sendToPersist_persistCh_of_closed (c : Cache) (op : PersistOp)
    (h : c.closed = true) : (c.sendToPersist op).persistCh = c.persistCh := by
  unfold Cache.sendToPersist
  rw [if_pos h]

theorem setCore_closed (c : Cache) (k v : String) :
    (c.setCore k v).closed = c.closed := by
  unfold Cache.setCore
  dsimp only
  split_ifs <;> first
    | rfl
    | (cases (c.getShard k).items <;> rfl)

theorem setCore_persistCh (c : Cache) (k v : String) :
    (c.setCore k v).persistCh = c.persistCh := by
  unfold Cache.setCore
  dsimp only
  split_ifs <;> first
    | rfl
    | (cases (c.getShard k).items <;> rfl)

theorem Set_closed (c : Cache) (k v : String) :
    (c.Set k v).closed = c.closed := by
  unfold Cache.Set
  rw [sendToPersist_closed, setCore_closed]

theorem Set_persistCh_of_closed (c : Cache) (k v : String) (h : c.closed = true) :
    (c.Set k v).persistCh = c.persistCh := by
  unfold Cache.Set
  rw [sendToPersist_persistCh_of_closed _ _ (by rw [setCore_closed]; exact h),
    setCore_persistCh]

theorem SetWithTime_closed (c : Cache) (k v : String) (e r : Int) :
    (c.SetWithTime k v e r).closed = c.closed := by
  unfold Cache.SetWithTime
  dsimp only
  split_ifs <;> first
    | rfl
    | (cases (c.getShard k).items <;> rfl)

theorem SetWithTime_persistCh (c : Cache) (k v : String) (e r : Int) :
    (c.SetWithTime k v e r).persistCh = c.persistCh := by
  unfold Cache.SetWithTime
  dsimp only
  split_ifs <;> first
    | rfl
    | (cases (c.getShard k).items <;> rfl)

theorem Delete_closed (c : Cache) (k : String) :
    (c.Delete k).closed = c.closed := by
  unfold Cache.Delete
  dsimp only
  split_ifs
  · rw [sendToPersist_closed]
  · rfl

theorem Delete_persistCh_of_closed (c : Cache) (k : String) (h : c.closed = true) :
    (c.Delete k).persistCh = c.persistCh := by
  unfold Cache.Delete
  dsimp only
  split_ifs
  · exact sendToPersist_persistCh_of_closed _ _ h
  · rfl

theorem cleanupShard_closed (c : Cache) (i : Nat) (n : Int) :
    (c.cleanupShard i n).closed = c.closed := rfl

theorem cleanupShard_persistCh (c : Cache) (i : Nat) (n : Int) :
    (c.cleanupShard i n).persistCh = c.persistCh := rfl

theorem cleanupAll_closed (c : Cache) (n : Int) :
    (c.cleanupAll n).closed = c.closed := by
  unfold Cache.cleanupAll
  generalize List.range 256 = l
  induction l generalizing c with
  | nil => rfl
  | cons j js ih => simpa using ih (c.cleanupShard j n)

theorem cleanupAll_persistCh (c : Cache) (n : Int) :
    (c.cleanupAll n).persistCh = c.persistCh := by
  unfold Cache.cleanupAll
  generalize List.range 256 = l
  induction l generalizing c with
  | nil => rfl
  | cons j js ih => simpa using ih (c.cleanupShard j n)

theorem applyOp_closed (c : Cache) (o : CacheOp) : (applyOp c o).closed = c.closed := by
  cases o with
  | setOp k v => exact Set_closed c k v
  | delOp k => exact Delete_closed c k
  | setTimeOp k v e r => exact SetWithTime_closed c k v e r
  | sweepOp n => exact cleanupAll_closed c n

theorem applyOp_persistCh_of_closed (c : Cache) (o : CacheOp) (h : c.closed = true) :
    (applyOp c o).persistCh = c.persistCh := by
  cases o with
  | setOp k v => exact Set_persistCh_of_closed c k v h
  | delOp k => exact Delete_persistCh_of_closed c k h
  | setTimeOp k v e r => exact SetWithTime_persistCh c k v e r
  | sweepOp n => exact cleanupAll_persistCh c n

theorem applyOps_persistCh_of_closed (c : Cache) (ops : List CacheOp)
    (h : c.closed = true) : (applyOps c ops).persistCh = c.persistCh := by
  induction ops generalizing c with
  | nil => rfl
  | cons o os ih =>
    show (applyOps (applyOp c o) os).persistCh = c.persistCh
    rw [ih (applyOp c o) (by rw [applyOp_closed]; exact h),
      applyOp_persistCh_of_closed c o h]

/-! ### Claim theorems -/

/-- A concrete cache state with explicit window, used by witnesses; it
is the state Cache.New produces for refresh ratio 0, written with the
window given directly so that witnesses evaluate by kernel reduction. -/
def baseCache (ttl window start : Int) : Cache :=
  { shards := List.replicate 256 ⟨[]⟩
    ttl := ttl
    refreshWindow := window
    shardCap := 2000
    count := 0
    droppedUpdates := 0
    now := start
    persistCh := []
    persistCap := 2048
    closed := false }

/-- C4: Cache.Get returns the miss quadruple (empty value, found false,
needsRefresh false, remaining 0) whenever the key is absent from its
shard or the cached now has reached exp (so an entry is already missing
at its expiry instant, before any sweep); on a live entry it returns
the stored value, found true, needsRefresh equal to (refreshWindow
positive and now at or past refreshAt), and remaining equal to exp
minus now. -/
theorem C4_get_contract (c : Cache) (key : String) :
    ((c.lookupEntry key = none ∨ ∃ e, c.lookupEntry key = some e ∧ e.exp ≤ c.now) →
       c.Get key = ⟨"", false, false, 0⟩) ∧
    (∀ e, c.lookupEntry key = some e → c.now < e.exp →
       c.Get key = ⟨e.value, true,
         decide (0 < c.refreshWindow) && decide (e.refreshAt ≤ c.now),
         e.exp - c.now⟩) := by
  constructor
  · rintro (hmiss | ⟨e, he, hexp⟩)
    · unfold Cache.Get
      rw [hmiss]
    · unfold Cache.Get
      rw [he]
      dsimp only
      rw [if_pos (by omega : c.now ≥ e.exp)]
  · intro e he hlive
    unfold Cache.Get
    rw [he]
    dsimp only
    rw [if_neg (by omega : ¬ c.now ≥ e.exp)]

/-- C4 witness: an absent key misses on a fresh cache, and a key
written with TTL 3600 at now 0 is returned live with no refresh flag
(window 0) and remaining 3600. -/
theorem C4_witness :
    (baseCache 3600 0 0).Get "9.9.9" = ⟨"", false, false, 0⟩ ∧
    ((baseCache 3600 0 0).Set "1.2.3" "beijing_cmcc").Get "1.2.3"
      = ⟨"beijing_cmcc", true, false, 3600⟩ := by
  constructor
  · exact (C4_get_contract (baseCache 3600 0 0) "9.9.9").1 (Or.inl (by decide))
  · exact ((C4_get_contract ((baseCache 3600 0 0).Set "1.2.3" "beijing_cmcc") "1.2.3").2
      ⟨"beijing_cmcc", 3600, 3600⟩ (by decide) (by decide)).trans (by decide)

/-- C5: sendToPersist never blocks: with the closed flag set, or
otherwise with the channel full, the op is dropped and droppedUpdates
is incremented by exactly one with the channel untouched; otherwise the
op is appended to the channel; and after Close has run, no sequence of
cache operations ever appends to the persistence channel again. -/
theorem C5_send_to_persist_policy (c : Cache) (op : PersistOp) (ops : List CacheOp) :
    (c.closed = true →
       c.sendToPersist op = { c with droppedUpdates := c.droppedUpdates + 1 }) ∧
    (c.closed = false → c.persistCap ≤ c.persistCh.length →
       c.sendToPersist op = { c with droppedUpdates := c.droppedUpdates + 1 }) ∧
    (c.closed = false → c.persistCh.length < c.persistCap →
       c.sendToPersist op = { c with persistCh := c.persistCh ++ [op] }) ∧
    (applyOps (c.Close) ops).persistCh = c.persistCh := by
  refine ⟨?_, ?_, ?_, ?_⟩
  · intro h
    unfold Cache.sendToPersist
    rw [if_pos h]
  · intro h hfull
    unfold Cache.sendToPersist
    rw [if_neg (by simp [h]), if_neg (by omega)]
  · intro h hroom
    unfold Cache.sendToPersist
    rw [if_neg (by simp [h]), if_pos hroom]
  · exact applyOps_persistCh_of_closed c.Close ops rfl

/-- C5 witness: on a closed one-op cache the op is dropped with the
counter bumped; on the open empty cache it is enqueued; and a Set after
Close leaves the channel empty. -/
theorem C5_witness :
    ((baseCache 10 0 0).Close.sendToPersist ⟨false, "k", "v", 1, 1⟩).droppedUpdates = 1 ∧
    ((baseCache 10 0 0).sendToPersist ⟨false, "k", "v", 1, 1⟩).persistCh
      = [⟨false, "k", "v", 1, 1⟩] ∧
    (applyOps (baseCache 10 0 0).Close [.setOp "1.2.3" "t"]).persistCh = [] := by
  refine ⟨?_, ?_, ?_⟩
  · rw [(C5_send_to_persist_policy (baseCache 10 0 0).Close ⟨false, "k", "v", 1, 1⟩ []).1 rfl]
    rfl
  · rw [(C5_send_to_persist_policy (baseCache 10 0 0) ⟨false, "k", "v", 1, 1⟩ []).2.2.1
      rfl (by decide)]
    rfl
  · exact (C5_send_to_persist_policy (baseCache 10 0 0) ⟨false, "k", "v", 1, 1⟩
      [.setOp "1.2.3" "t"]).2.2.2

/-- C8: Cache.New coerces every refresh ratio below 0 or at least 1 to
0, making the refresh window 0; and on any cache whose refresh window
is 0, Get never sets the needsRefresh flag. -/
theorem C8_refresh_ratio_coercion (ttl : Int) (q : ℚ) (start : Int)
    (c : Cache) (key : String) :
    ((q < 0 ∨ 1 ≤ q) → (Cache.New ttl q start).refreshWindow = 0) ∧
    (c.refreshWindow = 0 → (c.Get key).needsRefresh = false) := by
  constructor
  · intro hq
    unfold Cache.New
    dsimp only
    rw [if_pos hq]
    simp [ratTruncToInt]
  · intro hw
    unfold Cache.Get
    cases c.lookupEntry key with
    | none => rfl
    | some e =>
      dsimp only
      split_ifs
      · rfl
      · simp [hw]

/-- C8 witness: ratio 5/4 is coerced (window 0 even with TTL 1000), and
a live entry written on a window-0 cache reads back with needsRefresh
false. -/
theorem C8_witness :
    (Cache.New 1000 (5 / 4 : ℚ) 0).refreshWindow = 0 ∧
    (((baseCache 1000 0 0).Set "1.2.3" "t").Get "1.2.3").needsRefresh = false := by
  constructor
  · exact (C8_refresh_ratio_coercion 1000 (5 / 4 : ℚ) 0 (baseCache 1000 0 0) "x").1
      (Or.inr (by norm_num))
  · exact (C8_refresh_ratio_coercion 1000 (5 / 4 : ℚ) 0
      ((baseCache 1000 0 0).Set "1.2.3" "t") "1.2.3").2 (by decide)

/-- C3: Set computes exp = now + ttl and refreshAt = exp minus the
refresh window; under the shard lock an existing key is overwritten in
place with the count unchanged; a new key on a full shard (the cap is
positive, as Cache.New always sets 2000) first removes exactly one
existing binding (count minus one) and then inserts (count plus one); a
new key on a non-full shard just inserts (count plus one); and in every
case the locked update is followed by one upsert persistence op
carrying the key, value, exp and refreshAt. -/
theorem C3_set_contract (c : Cache) (key val : String) (hcap : 0 < c.shardCap) :
    ((lookupKey (c.getShard key).items key).isSome = true →
       (c.setCore key val).shards
         = c.shards.set (shardIdx key)
             ⟨overwriteKey (c.getShard key).items key
               ⟨val, c.now + c.ttl, c.now + c.ttl - c.refreshWindow⟩⟩ ∧
       (c.setCore key val).count = c.count) ∧
    (lookupKey (c.getShard key).items key = none →
       c.shardCap ≤ (c.getShard key).items.length →
       ∃ k0 e0 tl, (c.getShard key).items = (k0, e0) :: tl ∧
         (c.setCore key val).shards
           = c.shards.set (shardIdx key)
               ⟨(key, ⟨val, c.now + c.ttl, c.now + c.ttl - c.refreshWindow⟩) :: tl⟩ ∧
         (c.setCore key val).count = (c.count - 1) + 1) ∧
    (lookupKey (c.getShard key).items key = none →
       (c.getShard key).items.length < c.shardCap →
       (c.setCore key val).shards
         = c.shards.set (shardIdx key)
             ⟨(key, ⟨val, c.now + c.ttl, c.now + c.ttl - c.refreshWindow⟩)
               :: (c.getShard key).items⟩ ∧
       (c.setCore key val).count = c.count + 1) ∧
    c.Set key val = (c.setCore key val).sendToPersist
      ⟨false, key, val, c.now + c.ttl, (c.now + c.ttl) - c.refreshWindow⟩ := by
  refine ⟨?_, ?_, ?_, rfl⟩
  · intro hsome
    unfold Cache.setCore
    dsimp only
    rw [if_pos hsome]
    exact ⟨rfl, rfl⟩
  · intro hnone hfull
    unfold Cache.setCore
    dsimp only
    rw [if_neg (by rw [hnone]; simp), if_pos hfull]
    cases hitems : (c.getShard key).items with
    | nil =>
      exfalso
      rw [hitems] at hfull
      simp at hfull
      omega
    | cons hd tl =>
      obtain ⟨k0, e0⟩ := hd
      dsimp only
      exact ⟨k0, e0, tl, rfl, rfl, rfl⟩
  · intro hnone hroom
    unfold Cache.setCore
    dsimp only
    rw [if_neg (by rw [hnone]; simp), if_neg (by omega)]
    exact ⟨rfl, rfl⟩

/-- A one-binding, capacity-one cache fixture used by the C3 witness:
the shard of the key 9.9.9 is at capacity with an unrelated binding. -/
def fullShardCache : Cache :=
  { baseCache 100 0 0 with
    shards := (baseCache 100 0 0).shards.set (shardIdx "9.9.9")
      ⟨[("other", ⟨"v0", 50, 50⟩)]⟩,
    count := 1, shardCap := 1 }

set_option maxRecDepth 4000 in
/-- C3 witness: on a cache whose shard for the key is at capacity with
one binding, setting a fresh key evicts that binding and inserts the
new one, and the count goes through minus one then plus one. -/
theorem C3_witness :
    ∃ k0 e0 tl,
      (fullShardCache.getShard "9.9.9").items = (k0, e0) :: tl ∧
      (fullShardCache.setCore "9.9.9" "t").shards
        = fullShardCache.shards.set (shardIdx "9.9.9")
            ⟨("9.9.9", ⟨"t", 100, 100⟩) :: tl⟩ ∧
      (fullShardCache.setCore "9.9.9" "t").count = ((1 : Int) - 1) + 1 := by
  obtain ⟨k0, e0, tl, hsplit, hshards, hcount⟩ :=
    (C3_set_contract fullShardCache "9.9.9" "t" (by decide)).2.1
      (by decide) (by decide)
  exact ⟨k0, e0, tl, hsplit, hshards, hcount⟩

/-- C9: the cache count invariant: when the atomic count equals the
number of live bindings summed across the 256 shards, it still does
after Set, SetWithTime, Delete and a full expiry sweep (each adjusting
the count by exactly the bindings it adds or removes), and the count is
never negative. -/
theorem C9_count_invariant (c : Cache) (h : WellCounted c)
    (key val v2 : String) (exp2 ra2 swNow : Int) :
    WellCounted (c.Set key val) ∧
    WellCounted (c.SetWithTime key v2 exp2 ra2) ∧
    WellCounted (c.Delete key) ∧
    WellCounted (c.cleanupAll swNow) ∧
    0 ≤ c.count ∧ 0 ≤ (c.Set key val).count ∧ 0 ≤ (c.Delete key).count ∧
    0 ≤ (c.cleanupAll swNow).count := by
  refine ⟨wellCounted_Set c key val h, wellCounted_SetWithTime c key v2 exp2 ra2 h,
    wellCounted_Delete c key h, wellCounted_cleanupAll c swNow h,
    wellCounted_nonneg c h, wellCounted_nonneg _ (wellCounted_Set c key val h),
    wellCounted_nonneg _ (wellCounted_Delete c key h),
    wellCounted_nonneg _ (wellCounted_cleanupAll c swNow h)⟩

/-- C9 witness: starting from the well-counted empty cache, one Set
and a Delete keep the invariant, concretely: after Set of one key the
count is 1, and after the Delete of that key it is back to 0. -/
theorem C9_witness :
    ((baseCache 100 0 0).Set "1.2.3" "t").count = 1 ∧
    (((baseCache 100 0 0).Set "1.2.3" "t").Delete "1.2.3").count = 0 ∧
    WellCounted ((baseCache 100 0 0).Set "1.2.3" "t") := by
  have h0 : WellCounted (baseCache 100 0 0) := ⟨by decide, by decide⟩
  have h1 := (C9_count_invariant (baseCache 100 0 0) h0 "1.2.3" "t" "x" 0 0 0).1
  refine ⟨by decide, by decide, h1⟩

/-- C10: an IPv4-mapped IPv6 literal passes the handler validation
(ParseIP succeeds and To4 is non-nil, so no 400), yet getCacheKey
derives the key from the raw path text up to the third dot, giving
::ffff:1.2.3 for ::ffff:1.2.3.4 while the dotted quad 1.2.3.4 yields
1.2.3 — two distinct cache keys for the same address; and any raw
string with fewer than three dots is returned unchanged. -/
theorem C10_cache_key_aliasing (s : ManagerState) (t : String)
    (ht : dotCount t < 3) :
    ((goParseIP "::ffff:1.2.3.4").bind goTo4).isSome = true ∧
    (s.handleUpdate "::ffff:1.2.3.4").status ≠ HttpStatus.badRequest ∧
    getCacheKey "::ffff:1.2.3.4" = "::ffff:1.2.3" ∧
    getCacheKey "1.2.3.4" = "1.2.3" ∧
    ("::ffff:1.2.3" : String) ≠ "1.2.3" ∧
    getCacheKey t = t := by
  refine ⟨by decide, ?_, by decide, by decide, by decide, ?_⟩
  · have hgate : goParseIP "::ffff:1.2.3.4"
        = some [0, 0, 0, 0, 0, 0, 0, 0, 0, 0, 255, 255, 1, 2, 3, 4] := by decide
    unfold ManagerState.handleUpdate
    rw [if_neg (by decide), hgate]
    dsimp only
    rw [if_neg (by decide)]
    split_ifs <;> simp
  · unfold getCacheKey
    rw [getCacheKeyAux_no_dot_budget t.data 0 (by simpa [dotCount] using ht)]

/-- C10 witness: the universally quantified part applied at a concrete
state and at a two-dot raw string, which getCacheKey returns whole. -/
theorem C10_witness :
    (ManagerState.handleUpdate ⟨baseCache 100 0 0, [], [], 4096⟩ "::ffff:1.2.3.4").status
      ≠ HttpStatus.badRequest ∧
    getCacheKey "10.0.0" = "10.0.0" := by
  have h := C10_cache_key_aliasing ⟨baseCache 100 0 0, [], [], 4096⟩ "10.0.0" (by decide)
  exact ⟨h.2.1, h.2.2.2.2.2⟩

/-! ### Normalizer claim support -/

theorem standardize_fields (p i : String) :
    IPInfo.Standardize ⟨p, i, "", ""⟩ = ⟨p, i, provinceCodeOf p, ispCodeOf i⟩ := by
  unfold IPInfo.Standardize IPInfo.detectProvinceCode IPInfo.detectISPCode
  by_cases h1 : provinceCodeOf p = "" <;> by_cases h2 : ispCodeOf i = "" <;>
    simp [h1, h2]

/-- The province vocabulary the spec refers to: the Chinese names and
the codes the trie is built from. -/
def provVocab : List String := cnMapList.map Prod.fst ++ cnMapList.map Prod.snd

/-- The ISP vocabulary: every keyword of the rule list. -/
def ispVocab : List String := (ispRules.map Prod.snd).flatten

theorem province_vocab_roundtrip : ∀ p ∈ provVocab,
    provinceCodeOf p ≠ "" ∧ provinceCodeOf (provinceCodeOf p) = provinceCodeOf p := by
  decide

theorem isp_vocab_codes : ∀ i ∈ ispVocab,
    ispCodeOf i ∈ ["ct", "cu", "cmcc", "edu", "gwbn", "cbn"] ∧ ispCodeOf i ≠ "" := by
  decide

theorem isp_code_self :
    ispCodeOf "edu" = "edu" ∧ ispCodeOf "gwbn" = "gwbn" ∧ ispCodeOf "cbn" = "cbn" ∧
    ispCodeOf "ct" = "" ∧ ispCodeOf "cu" = "" ∧ ispCodeOf "cmcc" = "" := by
  decide

theorem data_append (a b : String) : (a ++ b).data = a.data ++ b.data :=
  String.data_append a b

theorem tag_ne_fallback (pc ic : String) :
    pc ++ "_" ++ ic ≠ "fallback" := by
  intro h
  have hd : (pc ++ "_" ++ ic).data = "fallback".data := by rw [h]
  rw [data_append, data_append] at hd
  have hu : '_' ∈ "fallback".data := by
    rw [← hd]
    exact List.mem_append_left _ (List.mem_append_right _ (by decide))
  exact absurd hu (by decide)

/-- C6 counterexample: normalizing (Guangdong province, China Telecom)
yields the tag guangdong_ct, but feeding the output codes back as the
province and ISP inputs yields fallback (the ct rule has no keyword
matching the bare code ct), so normalization is not idempotent on this
recognized pair. -/
theorem C6_counterexample :
    (IPInfo.Standardize ⟨"广东省", "中国电信", "", ""⟩).ToTag = "guangdong_ct" ∧
    (IPInfo.Standardize ⟨(IPInfo.Standardize ⟨"广东省", "中国电信", "", ""⟩).ProvinceCode,
        (IPInfo.Standardize ⟨"广东省", "中国电信", "", ""⟩).ISPCode, "", ""⟩).ToTag
      = "fallback" ∧
    ("fallback" : String) ≠ "guangdong_ct" := by
  refine ⟨by decide, by decide, by decide⟩

/-- C6 (amended): for every (province, isp) pair in the recognized
vocabulary, re-normalizing the output codes yields the same tag exactly
when the detected ISP code is one of edu, gwbn, cbn (whose keyword
lists contain their own code); for the codes ct, cu and cmcc the second
normalization detects no ISP and yields fallback. -/
theorem C6_roundtrip_amended (p i : String) (hp : p ∈ provVocab) (hi : i ∈ ispVocab) :
    (IPInfo.Standardize ⟨(IPInfo.Standardize ⟨p, i, "", ""⟩).ProvinceCode,
        (IPInfo.Standardize ⟨p, i, "", ""⟩).ISPCode, "", ""⟩).ToTag
      = if (IPInfo.Standardize ⟨p, i, "", ""⟩).ISPCode ∈ (["edu", "gwbn", "cbn"] : List String)
        then (IPInfo.Standardize ⟨p, i, "", ""⟩).ToTag else "fallback" := by
  have hprov := province_vocab_roundtrip p hp
  have hisp := isp_vocab_codes i hi
  have hself := isp_code_self
  rw [standardize_fields p i]
  dsimp only
  rw [standardize_fields (provinceCodeOf p) (ispCodeOf i), hprov.2]
  have h6 : ispCodeOf i = "ct" ∨ ispCodeOf i = "cu" ∨ ispCodeOf i = "cmcc" ∨
      ispCodeOf i = "edu" ∨ ispCodeOf i = "gwbn" ∨ ispCodeOf i = "cbn" := by
    simpa using hisp.1
  rcases h6 with h | h | h | h | h | h <;> rw [h] <;>
    simp only [hself.1, hself.2.1, hself.2.2.1, hself.2.2.2.1, hself.2.2.2.2.1,
      hself.2.2.2.2.2, IPInfo.ToTag] <;>
    simp [hprov.1]

/-- C6 witness: the amended statement applied at the recognized pair
(Guangdong, CERNET), whose ISP code edu survives the round trip. -/
theorem C6_witness :
    (IPInfo.Standardize ⟨(IPInfo.Standardize ⟨"广东", "CERNET", "", ""⟩).ProvinceCode,
        (IPInfo.Standardize ⟨"广东", "CERNET", "", ""⟩).ISPCode, "", ""⟩).ToTag
      = (IPInfo.Standardize ⟨"广东", "CERNET", "", ""⟩).ToTag := by
  have h := C6_roundtrip_amended "广东" "CERNET" (by decide) (by decide)
  rw [h]
  rw [if_pos (by decide)]

/-- C7: after Standardize of raw inputs, ToTag yields the literal
fallback exactly when province detection or ISP detection produced an
empty code, and otherwise the underscore-joined code pair; and the trie
walk resolves the multi-character prefix 内蒙古 (also inside the longer
official name) and maps the already-coded input guangdong to itself. -/
theorem C7_totag_contract (p i : String) :
    ((IPInfo.Standardize ⟨p, i, "", ""⟩).ToTag = "fallback"
       ↔ provinceCodeOf p = "" ∨ ispCodeOf i = "") ∧
    (provinceCodeOf p ≠ "" → ispCodeOf i ≠ "" →
       (IPInfo.Standardize ⟨p, i, "", ""⟩).ToTag
         = provinceCodeOf p ++ "_" ++ ispCodeOf i) ∧
    provinceCodeOf "内蒙古" = "neimenggu" ∧
    provinceCodeOf "内蒙古自治区" = "neimenggu" ∧
    provinceCodeOf "guangdong" = "guangdong" := by
  rw [standardize_fields p i]
  refine ⟨?_, ?_, by decide, by decide, by decide⟩
  · unfold IPInfo.ToTag
    dsimp only
    constructor
    · intro h
      by_contra hcon
      push_neg at hcon
      rw [if_neg (by tauto)] at h
      exact tag_ne_fallback _ _ h
    · intro h
      rw [if_pos h]
  · intro h1 h2
    unfold IPInfo.ToTag
    dsimp only
    rw [if_neg (by tauto)]

/-- C7 witness: the fallback iff and the format equation applied at the
concrete recognized pair (Shanghai, China Unicom) and at an
unrecognized pair. -/
theorem C7_witness :
    (IPInfo.Standardize ⟨"上海", "中国联通", "", ""⟩).ToTag = "shanghai_cu" ∧
    (IPInfo.Standardize ⟨"Mars", "AOL", "", ""⟩).ToTag = "fallback" := by
  constructor
  · have h := (C7_totag_contract "上海" "中国联通").2.1 (by decide) (by decide)
    rw [h]
    decide
  · exact ((C7_totag_contract "Mars" "AOL").1).mpr (Or.inl (by decide))

/-- C1: for every request whose path is an IPv4 dotted-quad literal,
HandleUpdate follows the five-state machine on the slash-24 key: a hit
outside the refresh window answers 200 with the cached tag and no side
effect; a hit inside the window answers 200 with the cached tag and,
when TryAdd succeeds, try-sends the raw IP, undoing the TryAdd when the
send fails; a miss with a failed TryAdd answers 202; a miss with TryAdd
and a successful try-send answers 202 with the key queued; a miss with
TryAdd and a failed try-send answers 429 with the key released. -/
theorem C1_handler_state_machine (s : ManagerState) (rawIP : String)
    (hv : (parseIPv4 rawIP).isSome = true) :
    ((s.cache.Get (getCacheKey rawIP)).found = true →
       (s.cache.Get (getCacheKey rawIP)).needsRefresh = false →
       s.handleUpdate rawIP = ⟨.ok, (s.cache.Get (getCacheKey rawIP)).value, s⟩) ∧
    ((s.cache.Get (getCacheKey rawIP)).found = true →
       (s.cache.Get (getCacheKey rawIP)).needsRefresh = true →
       (s.handleUpdate rawIP).status = .ok ∧
       (s.handleUpdate rawIP).body = (s.cache.Get (getCacheKey rawIP)).value ∧
       (getCacheKey rawIP ∈ s.inflight → (s.handleUpdate rawIP).state = s) ∧
       (getCacheKey rawIP ∉ s.inflight → s.queue.length < s.queueCap →
         (s.handleUpdate rawIP).state
           = { s with inflight := getCacheKey rawIP :: s.inflight,
                      queue := s.queue ++ [rawIP] }) ∧
       (getCacheKey rawIP ∉ s.inflight → ¬ s.queue.length < s.queueCap →
         (s.handleUpdate rawIP).state = s)) ∧
    ((s.cache.Get (getCacheKey rawIP)).found = false →
       getCacheKey rawIP ∈ s.inflight →
       s.handleUpdate rawIP = ⟨.accepted, "", s⟩) ∧
    ((s.cache.Get (getCacheKey rawIP)).found = false →
       getCacheKey rawIP ∉ s.inflight → s.queue.length < s.queueCap →
       s.handleUpdate rawIP = ⟨.accepted, "",
         { s with inflight := getCacheKey rawIP :: s.inflight,
                  queue := s.queue ++ [rawIP] }⟩) ∧
    ((s.cache.Get (getCacheKey rawIP)).found = false →
       getCacheKey rawIP ∉ s.inflight → ¬ s.queue.length < s.queueCap →
       s.handleUpdate rawIP = ⟨.tooManyRequests, "", s⟩) := by
  cases hx : parseIPv4 rawIP with
  | none => rw [hx] at hv; exact absurd hv (by decide)
  | some x =>
    have hne : ¬ (rawIP = "" ∨ rawIP = "favicon.ico") := by
      rintro (h | h) <;> rw [h] at hx <;> exact Option.noConfusion hx
    have hgate : s.handleUpdate rawIP =
        (if (s.cache.Get (getCacheKey rawIP)).found then
          if (s.cache.Get (getCacheKey rawIP)).needsRefresh then
            if getCacheKey rawIP ∈ s.inflight then
              ⟨.ok, (s.cache.Get (getCacheKey rawIP)).value, s⟩
            else if s.queue.length < s.queueCap then
              ⟨.ok, (s.cache.Get (getCacheKey rawIP)).value,
                { s with inflight := getCacheKey rawIP :: s.inflight,
                         queue := s.queue ++ [rawIP] }⟩
            else
              ⟨.ok, (s.cache.Get (getCacheKey rawIP)).value,
                { s with inflight :=
                    (getCacheKey rawIP :: s.inflight).erase (getCacheKey rawIP) }⟩
          else ⟨.ok, (s.cache.Get (getCacheKey rawIP)).value, s⟩
        else
          if getCacheKey rawIP ∈ s.inflight then ⟨.accepted, "", s⟩
          else if s.queue.length < s.queueCap then
            ⟨.accepted, "", { s with inflight := getCacheKey rawIP :: s.inflight,
                                     queue := s.queue ++ [rawIP] }⟩
          else
            ⟨.tooManyRequests, "",
              { s with inflight :=
                  (getCacheKey rawIP :: s.inflight).erase (getCacheKey rawIP) }⟩) := by
      unfold ManagerState.handleUpdate
      rw [if_neg hne, goParseIP_of_parseIPv4 rawIP x hx]
      dsimp only
      rw [if_neg (by rw [goTo4_v4InV6]; simp)]
    refine ⟨?_, ?_, ?_, ?_, ?_⟩
    · intro hf hnr
      rw [hgate, if_pos hf, if_neg (by rw [hnr]; simp)]
    · intro hf hnr
      refine ⟨?_, ?_, ?_, ?_, ?_⟩
      · rw [hgate, if_pos hf, if_pos (by rw [hnr])]
        split_ifs <;> rfl
      · rw [hgate, if_pos hf, if_pos (by rw [hnr])]
        split_ifs <;> rfl
      · intro hin
        rw [hgate, if_pos hf, if_pos (by rw [hnr]), if_pos hin]
      · intro hnotin hroom
        rw [hgate, if_pos hf, if_pos (by rw [hnr]), if_neg hnotin, if_pos hroom]
      · intro hnotin hnoroom
        rw [hgate, if_pos hf, if_pos (by rw [hnr]), if_neg hnotin, if_neg hnoroom]
        dsimp only
        rw [List.erase_cons_head]
    · intro hf hin
      rw [hgate, if_neg (by rw [hf]; simp), if_pos hin]
    · intro hf hnotin hroom
      rw [hgate, if_neg (by rw [hf]; simp), if_neg hnotin, if_pos hroom]
    · intro hf hnotin hnoroom
      rw [hgate, if_neg (by rw [hf]; simp), if_neg hnotin, if_neg hnoroom]
      rw [List.erase_cons_head]

/-- C1 witness: on an empty state with queue capacity 0, a miss where
TryAdd succeeds and the try-send fails answers 429 and restores the
inflight set; with capacity 4096 the same miss answers 202 with the
key queued. -/
theorem C1_witness :
    ManagerState.handleUpdate ⟨baseCache 100 0 0, [], [], 0⟩ "1.2.3.4"
      = ⟨.tooManyRequests, "", ⟨baseCache 100 0 0, [], [], 0⟩⟩ ∧
    ManagerState.handleUpdate ⟨baseCache 100 0 0, [], [], 4096⟩ "1.2.3.4"
      = ⟨.accepted, "", ⟨baseCache 100 0 0, ["1.2.3"], ["1.2.3.4"], 4096⟩⟩ := by
  constructor
  · exact (C1_handler_state_machine ⟨baseCache 100 0 0, [], [], 0⟩ "1.2.3.4"
      (by decide)).2.2.2.2 (by decide) (by decide) (by decide)
  · exact ((C1_handler_state_machine ⟨baseCache 100 0 0, [], [], 4096⟩ "1.2.3.4"
      (by decide)).2.2.2.1 (by decide) (by decide) (by decide)).trans (by decide)

/-- C2: inflight bookkeeping is balanced on every terminating path:
the single-flight invariant (the inflight set is duplicate-free and
matches, up to order, the cache keys of the queued items) is preserved
by every handler invocation and by every worker iteration, and a
worker iteration on a non-empty queue always ends with exactly the
dequeued key erased from the inflight set (the deferred Delete runs on
the re-check-hit path, the fetch-error path and the successful-Set
path alike). -/
theorem C2_inflight_pairing (s : ManagerState) (rawIP ip : String)
    (fetch : String → Option (String × String)) (rest : List String) :
    (InflightInv s → InflightInv (s.handleUpdate rawIP).state) ∧
    (InflightInv s → InflightInv (s.workerStep fetch)) ∧
    (s.queue = ip :: rest →
       (s.workerStep fetch).inflight = s.inflight.erase (getCacheKey ip) ∧
       (s.workerStep fetch).queue = rest) := by
  have hstep : ∀ ipq restq, s.queue = ipq :: restq →
      (s.workerStep fetch).inflight = s.inflight.erase (getCacheKey ipq) ∧
      (s.workerStep fetch).queue = restq := by
    intro ipq restq hq
    unfold ManagerState.workerStep
    rw [hq]
    dsimp only
    split_ifs with h1
    · exact ⟨rfl, rfl⟩
    · cases fetch ipq with
      | none => exact ⟨rfl, rfl⟩
      | some pi => exact ⟨rfl, rfl⟩
  refine ⟨?_, ?_, hstep ip rest⟩
  · intro hinv
    obtain ⟨hnd, hperm⟩ := hinv
    have hpush : ∀ key, key = getCacheKey rawIP → key ∉ s.inflight →
        InflightInv { s with inflight := key :: s.inflight, queue := s.queue ++ [rawIP] } := by
      intro key hkey hnotin
      constructor
      · exact List.nodup_cons.mpr ⟨hnotin, hnd⟩
      · show List.Perm (key :: s.inflight) ((s.queue ++ [rawIP]).map getCacheKey)
        rw [List.map_append]
        refine (hperm.cons key).trans ?_
        rw [hkey]
        simpa using (List.perm_append_singleton (getCacheKey rawIP)
          (s.queue.map getCacheKey)).symm
    unfold ManagerState.handleUpdate
    split
    · exact ⟨hnd, hperm⟩
    · split
      · exact ⟨hnd, hperm⟩
      next addr heq =>
        split
        · exact ⟨hnd, hperm⟩
        · dsimp only
          split
          · split
            · split
              next hin => exact ⟨hnd, hperm⟩
              next hnotin =>
                split
                next hroom => exact hpush (getCacheKey rawIP) rfl hnotin
                next hnoroom =>
                  dsimp only
                  rw [List.erase_cons_head]
                  exact ⟨hnd, hperm⟩
            · exact ⟨hnd, hperm⟩
          · split
            next hin => exact ⟨hnd, hperm⟩
            next hnotin =>
              split
              next hroom => exact hpush (getCacheKey rawIP) rfl hnotin
              next hnoroom =>
                dsimp only
                rw [List.erase_cons_head]
                exact ⟨hnd, hperm⟩
  · intro hinv
    obtain ⟨hnd, hperm⟩ := hinv
    cases hq : s.queue with
    | nil =>
      have hid : s.workerStep fetch = s := by
        unfold ManagerState.workerStep
        rw [hq]
      rw [hid]
      exact ⟨hnd, hperm⟩
    | cons ipq restq =>
      obtain ⟨hi, hq2⟩ := hstep ipq restq hq
      constructor
      · rw [hi]
        exact hnd.erase _
      · rw [hi, hq2]
        have hp2 : List.Perm s.inflight (getCacheKey ipq :: restq.map getCacheKey) := by
          rw [hq] at hperm
          simpa using hperm
        have := hp2.erase (getCacheKey ipq)
        rwa [List.erase_cons_head] at this

/-- C2 witness: the worker stepping a one-item queue with a failing
fetch releases the inflight key and preserves the invariant, and the
handler preserves the invariant on a concrete miss that enqueues. -/
theorem C2_witness :
    (ManagerState.workerStep ⟨baseCache 100 0 0, ["1.2.3"], ["1.2.3.4"], 4096⟩
        (fun _ => none)).inflight = [] ∧
    InflightInv (ManagerState.handleUpdate ⟨baseCache 100 0 0, [], [], 4096⟩
        "1.2.3.4").state := by
  constructor
  · have h := (C2_inflight_pairing ⟨baseCache 100 0 0, ["1.2.3"], ["1.2.3.4"], 4096⟩
      "1.2.3.4" "1.2.3.4" (fun _ => none) []).2.2 rfl
    rw [h.1]
    decide
  · exact (C2_inflight_pairing ⟨baseCache 100 0 0, [], [], 4096⟩ "1.2.3.4" "x"
      (fun _ => none) []).1 ⟨List.nodup_nil, List.Perm.refl _⟩
